import Mathlib

/-!
Verification of an immutable ternary search tree (TST) library.

The embedding follows the single C++ header of the repository. A tree is
either empty (a null root pointer in the source) or a node carrying a
symbol, a word flag and three children. Sequences of symbols are Lean
lists; the null-terminated string of the source corresponds to the list
without its terminator. Machine-level sharing via reference-counted
pointers is rendered structurally: two shared subtrees are equal terms.
-/

/-- A ternary search tree over symbols of type C. The constructor
TST.empty renders a null root pointer; TST.node renders a Node with its
value, word flag and left, center, right children. -/
inductive TST (C : Type) where
  | empty : TST C
  | node (value : C) (word : Bool) (l m r : TST C) : TST C
deriving DecidableEq

namespace Detail

/-- Embeds Detail::fold from the source: a left fold over the range,
here rendered as a list. It computes
functor(...functor(functor(acc, x0), x1)..., xn) and returns acc when
the range is empty. -/
def fold {T A : Type} : List T → A → (A → T → A) → A
  | [], acc, _ => acc
  | x :: xs, acc, functor => fold xs (functor acc x) functor

end Detail

namespace TST

variable {C : Type}

/-- Embeds the constructor TST(const C *str): the empty string gives the
empty tree, otherwise a node holding the first symbol, whose word flag is
set exactly when no further symbol follows, with empty left and right
children and the rest of the string as the center chain. -/
def ofList : List C → TST C
  | [] => .empty
  | c :: rest => .node c rest.isEmpty .empty (ofList rest) .empty

/-- Embeds empty(): whether the root pointer is null. -/
def emptyB : TST C → Bool
  | .empty => true
  | .node _ _ _ _ _ => false

/-- The word flag of the root, false on the empty tree. Every use in the
source is guarded by an emptiness check (short-circuit in exist), so the
default value on the empty tree is never observed. -/
def wordB : TST C → Bool
  | .empty => false
  | .node _ w _ _ _ => w

/-- Embeds operator+(const C *str), the persistent insertion. The order
of the branches matches the source: empty string, empty tree, first
symbol greater than the root value (descend right), smaller (descend
left), equal (extend word flag, descend center on the tail). -/
def insert [LinearOrder C] : TST C → List C → TST C
  | t, [] => t
  | .empty, s => ofList s
  | .node v w l m r, c :: rest =>
      if c > v then .node v w l m (insert r (c :: rest))
      else if c < v then .node v w (insert l (c :: rest)) m r
      else .node c (w || rest.isEmpty) l (insert m rest) r

/-- Embeds prefix_search(const C *str, size_t acc, TST parent): descends
while the tree is non-empty and the query has symbols left, returning the
count of matched symbols and the parent tree at the stop point. The
comparison order matches the source: value greater than the symbol goes
left, smaller goes right, equal consumes the symbol into center. -/
def prefix_search [LinearOrder C] : TST C → List C → Nat → TST C → Nat × TST C
  | .empty, _, acc, parent => (acc, parent)
  | .node _ _ _ _ _, [], acc, parent => (acc, parent)
  | .node v w l m r, c :: rest, acc, _ =>
      if v > c then prefix_search l (c :: rest) acc (.node v w l m r)
      else if v < c then prefix_search r (c :: rest) acc (.node v w l m r)
      else prefix_search m rest (acc + 1) (.node v w l m r)

/-- Embeds exist(const std::basic_string &str): the search must consume
the whole query and stop with a non-empty reported tree whose word flag
is set. The source short-circuits node.word() behind !node.empty(), so
the total wordB is a faithful rendering. -/
def exist [LinearOrder C] (t : TST C) (s : List C) : Bool :=
  let r := prefix_search t s 0 .empty
  decide (r.1 = s.length) && !(emptyB r.2) && wordB r.2

/-- Embeds prefix(const std::basic_string &str): the prefix of the query
of length equal to the matched count of the prefix search. The source
name is a keyword in Lean, hence the suffix. -/
def prefixOf [LinearOrder C] (t : TST C) (s : List C) : List C :=
  s.take (prefix_search t s 0 .empty).1

/-- Embeds fold(Acc acc, Functor functor): on the empty tree the
accumulator is returned unchanged; otherwise the accumulator is reduced
over the children left, center, right in order (the unrolling of
Detail.fold on the three-element child list) and the functor is then
applied to the reduced accumulator and the current tree. -/
def fold {A : Type} : TST C → A → (A → TST C → A) → A
  | .empty, acc, _ => acc
  | .node v w l m r, acc, functor =>
      functor (fold r (fold m (fold l acc functor) functor) functor) (.node v w l m r)

/-- Embeds size(): a fold counting one per visited tree. -/
def size (t : TST C) : Nat :=
  fold t 0 (fun acc _ => acc + 1)

/-- The message of the std::logic_error thrown by assert_not_empty. -/
def emptyMessage : String := "Ternary search tree empty."

/-- Embeds value(): the root symbol, or the assert_not_empty error on
the empty tree. -/
def value : TST C → Except String C
  | .empty => .error emptyMessage
  | .node v _ _ _ _ => .ok v

/-- Embeds word(): the root word flag, or the assert_not_empty error on
the empty tree. -/
def word : TST C → Except String Bool
  | .empty => .error emptyMessage
  | .node _ w _ _ _ => .ok w

/-- Embeds left(): the left child, or the assert_not_empty error on the
empty tree. -/
def left : TST C → Except String (TST C)
  | .empty => .error emptyMessage
  | .node _ _ l _ _ => .ok l

/-- Embeds center(): the center child, or the assert_not_empty error on
the empty tree. -/
def center : TST C → Except String (TST C)
  | .empty => .error emptyMessage
  | .node _ _ _ m _ => .ok m

/-- Embeds right(): the right child, or the assert_not_empty error on
the empty tree. -/
def right : TST C → Except String (TST C)
  | .empty => .error emptyMessage
  | .node _ _ _ _ r => .ok r

/-- A direction into one of the three children of a node. -/
inductive Dir where
  | L : Dir
  | M : Dir
  | R : Dir
deriving DecidableEq

/-- The child of a tree in a given direction; descending from the empty
tree stays empty (the source has no subtree there at all). -/
def child : TST C → Dir → TST C
  | .empty, _ => .empty
  | .node _ _ l _ _, .L => l
  | .node _ _ _ m _, .M => m
  | .node _ _ _ _ r, .R => r

/-- The subtree of a tree at a position given as a list of directions. -/
def subtreeAt (t : TST C) : List Dir → TST C
  | [] => t
  | d :: p => subtreeAt (child t d) p

/-- The path of directions along which insert rebuilds nodes: right or
left on symbol mismatch, center on match, and a center chain of fresh
nodes once the descent falls off the existing tree. Positions that are
not prefixes of this path are untouched by the insertion. -/
def insPath [LinearOrder C] : TST C → List C → List Dir
  | _, [] => []
  | .empty, s => List.replicate s.length .M
  | .node v _ l m r, c :: rest =>
      if c > v then .R :: insPath r (c :: rest)
      else if c < v then .L :: insPath l (c :: rest)
      else .M :: insPath m rest

/-- Formalises, from the words of the specification, that some stored
sequence of the tree agrees with the given sequence on all of its
symbols: the sequence is spelled by a root descent of the search
structure, with no requirement on word flags. The comparison order
mirrors the data-model invariant of the specification (left on smaller,
right on greater, center on match). -/
def hasChain [LinearOrder C] : TST C → List C → Bool
  | _, [] => true
  | .empty, _ :: _ => false
  | .node v _ l m r, c :: rest =>
      if v > c then hasChain l (c :: rest)
      else if v < c then hasChain r (c :: rest)
      else hasChain m rest

/-- The number of query symbols the deterministic ternary descent
matches: a parent-free and accumulator-free rendering of the count
computed by prefix_search. -/
def maxMatch [LinearOrder C] : TST C → List C → Nat
  | _, [] => 0
  | .empty, _ :: _ => 0
  | .node v _ l m r, c :: rest =>
      if v > c then maxMatch l (c :: rest)
      else if v < c then maxMatch r (c :: rest)
      else maxMatch m rest + 1

/-- Recursive membership: the query descends by ternary comparison and
the node matching the last symbol carries the word flag. Proved
equivalent to exist below. -/
def mem [LinearOrder C] : TST C → List C → Bool
  | .empty, _ => false
  | .node _ _ _ _ _, [] => false
  | .node v w l m r, c :: rest =>
      if v > c then mem l (c :: rest)
      else if v < c then mem r (c :: rest)
      else if rest.isEmpty then w else mem m rest

/-- The number of nodes of a tree, counted structurally. -/
def countNodes : TST C → Nat
  | .empty => 0
  | .node _ _ l m r => countNodes l + countNodes m + countNodes r + 1

end TST

/-- The tree of the end-to-end scenario of the specification: the words
category, functor and theory inserted in order into the empty tree. -/
def exampleTree : TST Char :=
  TST.insert (TST.insert (TST.insert TST.empty "category".toList) "functor".toList)
    "theory".toList

/-- C1: insert satisfies the recursive contract of the specification:
the empty sequence is a no-op, inserting into the empty tree builds the
path tree of the sequence, and otherwise the node is rebuilt with only
the child on the comparison side replaced; on a value match the word
flag is extended by whether the sequence has exactly one symbol left and
the center child receives the tail. -/
theorem tst_insert_contract (C : Type) [LinearOrder C] :
    (∀ t : TST C, TST.insert t [] = t) ∧
    (∀ s : List C, TST.insert TST.empty s = TST.ofList s) ∧
    (∀ (v : C) (w : Bool) (l m r : TST C) (c : C) (rest : List C),
      (v < c → TST.insert (TST.node v w l m r) (c :: rest)
          = TST.node v w l m (TST.insert r (c :: rest))) ∧
      (c < v → TST.insert (TST.node v w l m r) (c :: rest)
          = TST.node v w (TST.insert l (c :: rest)) m r) ∧
      (c = v → TST.insert (TST.node v w l m r) (c :: rest)
          = TST.node c (w || rest.isEmpty) l (TST.insert m rest) r)) := by
  refine ⟨fun t => ?_, fun s => ?_,
    fun v w l m r c rest => ⟨fun h => ?_, fun h => ?_, fun h => ?_⟩⟩
  · cases t <;> rfl
  · cases s <;> rfl
  · simp [TST.insert, h]
  · simp [TST.insert, h, asymm h]
  · subst h
    simp [TST.insert]

/-- Witness for C1: the three comparison branches of the contract at
concrete numeric symbols. -/
theorem tst_insert_contract_w :
    TST.insert (TST.node 2 false TST.empty TST.empty TST.empty) [3]
      = TST.node 2 false TST.empty TST.empty (TST.insert TST.empty [3]) ∧
    TST.insert (TST.node 2 false TST.empty TST.empty TST.empty) [1]
      = TST.node 2 false (TST.insert TST.empty [1]) TST.empty TST.empty ∧
    TST.insert (TST.node 2 false TST.empty TST.empty TST.empty) [2]
      = TST.node 2 (false || List.isEmpty ([] : List Nat)) TST.empty
          (TST.insert TST.empty ([] : List Nat)) TST.empty := by
  refine ⟨?_, ?_, ?_⟩
  · exact ((tst_insert_contract Nat).2.2 2 false TST.empty TST.empty TST.empty 3 []).1
      (by decide)
  · exact ((tst_insert_contract Nat).2.2 2 false TST.empty TST.empty TST.empty 1 []).2.1
      (by decide)
  · exact ((tst_insert_contract Nat).2.2 2 false TST.empty TST.empty TST.empty 2 []).2.2
      (by decide)

/-- C6: fold returns the accumulator unchanged on the empty tree, and on
a node it reduces the accumulator over the ordered child list left,
center, right by recursively folding each child (Detail.fold threaded
left to right) and then applies the functor to the reduced accumulator
and the current non-empty tree. With a counting functor every node
contributes exactly one application, so the traversal visits every node
exactly once. -/
theorem tst_fold_contract (C A : Type) :
    (∀ (acc : A) (functor : A → TST C → A), TST.fold TST.empty acc functor = acc) ∧
    (∀ (v : C) (w : Bool) (l m r : TST C) (acc : A) (functor : A → TST C → A),
      TST.fold (TST.node v w l m r) acc functor
        = functor (Detail.fold [l, m, r] acc (fun a t => TST.fold t a functor))
            (TST.node v w l m r)) ∧
    (∀ (t : TST C) (acc : Nat),
      TST.fold t acc (fun a _ => a + 1) = acc + TST.countNodes t) := by
  refine ⟨fun acc functor => rfl, fun v w l m r acc functor => rfl, fun t => ?_⟩
  induction t with
  | empty => intro acc; rfl
  | node v w l m r ihl ihm ihr =>
      intro acc
      simp only [TST.fold, TST.countNodes, ihl, ihm, ihr]
      omega

/-- C10: the empty sequence is never a member of any tree, because the
search on an exhausted query reports the initial empty parent; this is
consistent with insertion of the empty sequence being the identity. -/
theorem tst_exist_nil (C : Type) [LinearOrder C] (t : TST C) :
    TST.exist t [] = false ∧ TST.insert t [] = t := by
  constructor
  · cases t <;> rfl
  · cases t <;> rfl

/-- C8: the prefix search stops when the tree is empty or the query is
exhausted, reporting the matched count and the parent at the stop point;
on a mismatch it diverges left or right without counting, passing the
current non-empty node as the new parent; on a match it advances into
center, consuming one symbol and incrementing the count. -/
theorem tst_prefix_search_contract (C : Type) [LinearOrder C] :
    (∀ (s : List C) (acc : Nat) (parent : TST C),
      TST.prefix_search TST.empty s acc parent = (acc, parent)) ∧
    (∀ (t : TST C) (acc : Nat) (parent : TST C),
      TST.prefix_search t [] acc parent = (acc, parent)) ∧
    (∀ (v : C) (w : Bool) (l m r : TST C) (c : C) (rest : List C) (acc : Nat)
        (parent : TST C),
      (c < v → TST.prefix_search (TST.node v w l m r) (c :: rest) acc parent
          = TST.prefix_search l (c :: rest) acc (TST.node v w l m r)) ∧
      (v < c → TST.prefix_search (TST.node v w l m r) (c :: rest) acc parent
          = TST.prefix_search r (c :: rest) acc (TST.node v w l m r)) ∧
      (v = c → TST.prefix_search (TST.node v w l m r) (c :: rest) acc parent
          = TST.prefix_search m rest (acc + 1) (TST.node v w l m r))) := by
  refine ⟨fun s acc parent => rfl, fun t acc parent => ?_,
    fun v w l m r c rest acc parent => ⟨fun h => ?_, fun h => ?_, fun h => ?_⟩⟩
  · cases t <;> rfl
  · simp [TST.prefix_search, h]
  · simp [TST.prefix_search, h, asymm h]
  · subst h
    simp [TST.prefix_search]

/-- Witness for C8: the three comparison branches at concrete numeric
symbols. -/
theorem tst_prefix_search_contract_w :
    TST.prefix_search (TST.node 2 true TST.empty TST.empty TST.empty) [1] 0 TST.empty
      = TST.prefix_search TST.empty [1] 0
          (TST.node 2 true TST.empty TST.empty TST.empty) ∧
    TST.prefix_search (TST.node 2 true TST.empty TST.empty TST.empty) [3] 0 TST.empty
      = TST.prefix_search TST.empty [3] 0
          (TST.node 2 true TST.empty TST.empty TST.empty) ∧
    TST.prefix_search (TST.node 2 true TST.empty TST.empty TST.empty) [2] 0 TST.empty
      = TST.prefix_search TST.empty [] (0 + 1)
          (TST.node 2 true TST.empty TST.empty TST.empty) := by
  refine ⟨?_, ?_, ?_⟩
  · exact ((tst_prefix_search_contract Nat).2.2 2 true TST.empty TST.empty TST.empty
      1 [] 0 TST.empty).1 (by decide)
  · exact ((tst_prefix_search_contract Nat).2.2 2 true TST.empty TST.empty TST.empty
      3 [] 0 TST.empty).2.1 (by decide)
  · exact ((tst_prefix_search_contract Nat).2.2 2 true TST.empty TST.empty TST.empty
      2 [] 0 TST.empty).2.2 (by decide)

/-- C7: each of the five structural accessors fails with the empty-tree
error exactly on the empty tree and succeeds on every non-empty tree;
the emptiness test itself is total, as are all remaining operations,
which are plain total functions in this embedding. -/
theorem tst_accessor_errors (C : Type) (t : TST C) :
    (TST.emptyB t = true ↔ t = TST.empty) ∧
    ((TST.value t).isOk = !TST.emptyB t) ∧
    ((TST.word t).isOk = !TST.emptyB t) ∧
    ((TST.left t).isOk = !TST.emptyB t) ∧
    ((TST.center t).isOk = !TST.emptyB t) ∧
    ((TST.right t).isOk = !TST.emptyB t) ∧
    (t = TST.empty →
      TST.value t = Except.error TST.emptyMessage ∧
      TST.word t = Except.error TST.emptyMessage ∧
      TST.left t = Except.error TST.emptyMessage ∧
      TST.center t = Except.error TST.emptyMessage ∧
      TST.right t = Except.error TST.emptyMessage) := by
  cases t <;>
    simp [TST.emptyB, TST.value, TST.word, TST.left, TST.center, TST.right,
      Except.isOk, Except.toBool]

/-- Witness for C7: the implication discharged on the concrete empty
tree over numeric symbols. -/
theorem tst_accessor_errors_w :
    TST.value (TST.empty : TST Nat) = Except.error TST.emptyMessage ∧
    TST.word (TST.empty : TST Nat) = Except.error TST.emptyMessage := by
  have h := (tst_accessor_errors Nat TST.empty).2.2.2.2.2.2 rfl
  exact ⟨h.1, h.2.1⟩

theorem TST.insert_nil {C : Type} [LinearOrder C] (t : TST C) : TST.insert t [] = t := by
  cases t <;> rfl

theorem TST.insert_gt {C : Type} [LinearOrder C] {v c : C} (h : v < c) (w : Bool)
    (l m r : TST C) (rest : List C) :
    TST.insert (TST.node v w l m r) (c :: rest)
      = TST.node v w l m (TST.insert r (c :: rest)) := by
  simp [TST.insert, h]

theorem TST.insert_lt {C : Type} [LinearOrder C] {v c : C} (h : c < v) (w : Bool)
    (l m r : TST C) (rest : List C) :
    TST.insert (TST.node v w l m r) (c :: rest)
      = TST.node v w (TST.insert l (c :: rest)) m r := by
  simp [TST.insert, h, asymm h]

theorem TST.insert_eq {C : Type} [LinearOrder C] {v c : C} (h : c = v) (w : Bool)
    (l m r : TST C) (rest : List C) :
    TST.insert (TST.node v w l m r) (c :: rest)
      = TST.node c (w || rest.isEmpty) l (TST.insert m rest) r := by
  subst h
  simp [TST.insert]

theorem TST.ps_nil {C : Type} [LinearOrder C] (t : TST C) (acc : Nat) (p : TST C) :
    TST.prefix_search t [] acc p = (acc, p) := by
  cases t <;> rfl

theorem TST.ps_lt {C : Type} [LinearOrder C] {v c : C} (h : c < v) (w : Bool)
    (l m r : TST C) (rest : List C) (acc : Nat) (p : TST C) :
    TST.prefix_search (TST.node v w l m r) (c :: rest) acc p
      = TST.prefix_search l (c :: rest) acc (TST.node v w l m r) := by
  simp [TST.prefix_search, h]

theorem TST.ps_gt {C : Type} [LinearOrder C] {v c : C} (h : v < c) (w : Bool)
    (l m r : TST C) (rest : List C) (acc : Nat) (p : TST C) :
    TST.prefix_search (TST.node v w l m r) (c :: rest) acc p
      = TST.prefix_search r (c :: rest) acc (TST.node v w l m r) := by
  simp [TST.prefix_search, h, asymm h]

theorem TST.ps_eq {C : Type} [LinearOrder C] {v c : C} (h : v = c) (w : Bool)
    (l m r : TST C) (rest : List C) (acc : Nat) (p : TST C) :
    TST.prefix_search (TST.node v w l m r) (c :: rest) acc p
      = TST.prefix_search m rest (acc + 1) (TST.node v w l m r) := by
  subst h
  simp [TST.prefix_search]

theorem TST.mem_lt {C : Type} [LinearOrder C] {v c : C} (h : c < v) (w : Bool)
    (l m r : TST C) (rest : List C) :
    TST.mem (TST.node v w l m r) (c :: rest) = TST.mem l (c :: rest) := by
  simp [TST.mem, h]

theorem TST.mem_gt {C : Type} [LinearOrder C] {v c : C} (h : v < c) (w : Bool)
    (l m r : TST C) (rest : List C) :
    TST.mem (TST.node v w l m r) (c :: rest) = TST.mem r (c :: rest) := by
  simp [TST.mem, h, asymm h]

theorem TST.mem_eq {C : Type} [LinearOrder C] {v c : C} (h : v = c) (w : Bool)
    (l m r : TST C) (rest : List C) :
    TST.mem (TST.node v w l m r) (c :: rest)
      = if rest.isEmpty then w else TST.mem m rest := by
  subst h
  simp [TST.mem]

theorem TST.wordB_guard {C : Type} (t : TST C) :
    (!TST.emptyB t && TST.wordB t) = TST.wordB t := by
  cases t <;> rfl

theorem TST.ps_word_iff {C : Type} [LinearOrder C] (t : TST C) :
    ∀ (q : List C) (acc : Nat) (p : TST C), q ≠ [] →
      (((TST.prefix_search t q acc p).1 = acc + q.length ∧
          TST.wordB (TST.prefix_search t q acc p).2 = true) ↔ TST.mem t q = true) := by
  induction t with
  | empty =>
      intro q acc p hq
      cases q with
      | nil => exact absurd rfl hq
      | cons c rest =>
          simp only [TST.prefix_search, TST.mem]
          constructor
          · rintro ⟨h1, -⟩
            simp only [List.length_cons] at h1
            omega
          · intro h
            exact absurd h (by simp)
  | node v w l m r ihl ihm ihr =>
      intro q acc p hq
      cases q with
      | nil => exact absurd rfl hq
      | cons c rest =>
          rcases lt_trichotomy v c with h | h | h
          · rw [TST.ps_gt h, TST.mem_gt h]
            exact ihr (c :: rest) acc _ (by simp)
          · rw [TST.ps_eq h, TST.mem_eq h]
            cases rest with
            | nil =>
                rw [TST.ps_nil]
                simp [TST.wordB]
            | cons d drest =>
                have e : acc + (c :: d :: drest).length = (acc + 1) + (d :: drest).length := by
                  simp only [List.length_cons]
                  omega
                rw [e]
                simp only [List.isEmpty_cons, Bool.false_eq_true, if_false]
                exact ihm (d :: drest) (acc + 1) _ (by simp)
          · rw [TST.ps_lt h, TST.mem_lt h]
            exact ihl (c :: rest) acc _ (by simp)

theorem TST.exist_eq_mem {C : Type} [LinearOrder C] (t : TST C) (q : List C) :
    TST.exist t q = TST.mem t q := by
  cases q with
  | nil =>
      cases t <;>
        simp [TST.exist, TST.prefix_search, TST.mem, TST.emptyB, TST.wordB]
  | cons c rest =>
      have hiff := TST.ps_word_iff t (c :: rest) 0 TST.empty (by simp)
      simp only [TST.exist]
      cases hm : TST.mem t (c :: rest) with
      | true =>
          obtain ⟨h1, h2⟩ := hiff.mpr hm
          rw [Bool.and_assoc, TST.wordB_guard, h1, h2]
          simp
      | false =>
          rw [Bool.and_assoc, TST.wordB_guard]
          by_cases hd : (TST.prefix_search t (c :: rest) 0 TST.empty).1 = (c :: rest).length
          · by_cases hw :
              TST.wordB (TST.prefix_search t (c :: rest) 0 TST.empty).2 = true
            · have : TST.mem t (c :: rest) = true :=
                hiff.mp ⟨by simpa using hd, hw⟩
              rw [hm] at this
              exact absurd this (by simp)
            · simp [hw]
          · rw [decide_eq_false hd, Bool.false_and]

theorem TST.insert_empty_eq_ofList {C : Type} [LinearOrder C] (s : List C) :
    TST.insert TST.empty s = TST.ofList s := by
  cases s <;> rfl

theorem TST.ofList_mem {C : Type} [LinearOrder C] (s : List C) (h : s ≠ []) :
    TST.mem (TST.ofList s) s = true := by
  induction s with
  | nil => exact absurd rfl h
  | cons c rest ih =>
      rw [show TST.ofList (c :: rest)
            = TST.node c rest.isEmpty TST.empty (TST.ofList rest) TST.empty from rfl,
        TST.mem_eq rfl]
      cases rest with
      | nil => simp
      | cons d drest =>
          simp only [List.isEmpty_cons, Bool.false_eq_true, if_false]
          exact ih (by simp)

/-- C2: inserting any non-empty sequence into the empty tree yields a
tree that contains it. -/
theorem tst_insert_exist_self (C : Type) [LinearOrder C] (s : List C) (h : s ≠ []) :
    TST.exist (TST.insert TST.empty s) s = true := by
  rw [TST.insert_empty_eq_ofList, TST.exist_eq_mem]
  exact TST.ofList_mem s h

/-- Witness for C2 at a concrete two-symbol sequence. -/
theorem tst_insert_exist_self_w :
    TST.exist (TST.insert TST.empty [1, 2]) [1, 2] = true :=
  tst_insert_exist_self Nat [1, 2] (by decide)

theorem TST.mem_insert_mono {C : Type} [LinearOrder C] (t : TST C) :
    ∀ (s q : List C), TST.mem t q = true → TST.mem (TST.insert t s) q = true := by
  induction t with
  | empty =>
      intro s q hq
      simp [TST.mem] at hq
  | node v w l m r ihl ihm ihr =>
      intro s q hq
      cases s with
      | nil => rw [TST.insert_nil]; exact hq
      | cons c srest =>
          cases q with
          | nil => simp [TST.mem] at hq
          | cons d qrest =>
              rcases lt_trichotomy v c with h | h | h
              · rw [TST.insert_gt h]
                rcases lt_trichotomy v d with hd | hd | hd
                · rw [TST.mem_gt hd] at hq ⊢
                  exact ihr _ _ hq
                · rw [TST.mem_eq hd] at hq ⊢
                  exact hq
                · rw [TST.mem_lt hd] at hq ⊢
                  exact hq
              · rw [TST.insert_eq h.symm]
                subst h
                rcases lt_trichotomy v d with hd | hd | hd
                · rw [TST.mem_gt hd] at hq ⊢
                  exact hq
                · rw [TST.mem_eq hd] at hq ⊢
                  cases hqr : qrest.isEmpty
                  · rw [hqr] at hq
                    simp only [Bool.false_eq_true, if_false] at hq ⊢
                    exact ihm _ _ hq
                  · rw [hqr] at hq
                    simp only [if_true] at hq ⊢
                    rw [hq]
                    rfl
                · rw [TST.mem_lt hd] at hq ⊢
                  exact hq
              · rw [TST.insert_lt h]
                rcases lt_trichotomy v d with hd | hd | hd
                · rw [TST.mem_gt hd] at hq ⊢
                  exact hq
                · rw [TST.mem_eq hd] at hq ⊢
                  exact hq
                · rw [TST.mem_lt hd] at hq ⊢
                  exact ihl _ _ hq

/-- C3: insertion never removes membership: any sequence contained in a
tree is still contained after inserting any other sequence. -/
theorem tst_insert_mono (C : Type) [LinearOrder C] (t : TST C) (s q : List C)
    (h : TST.exist t q = true) : TST.exist (TST.insert t s) q = true := by
  rw [TST.exist_eq_mem] at h ⊢
  exact TST.mem_insert_mono t s q h

/-- Witness for C3: the sequence 1 stays a member after inserting 2. -/
theorem tst_insert_mono_w :
    TST.exist (TST.insert (TST.insert TST.empty [1]) [2]) [1] = true :=
  tst_insert_mono Nat (TST.insert TST.empty [1]) [2] [1] (by decide)

theorem TST.maxMatch_nil {C : Type} [LinearOrder C] (t : TST C) :
    TST.maxMatch t [] = 0 := by
  cases t <;> rfl

theorem TST.maxMatch_lt {C : Type} [LinearOrder C] {v c : C} (h : c < v) (w : Bool)
    (l m r : TST C) (rest : List C) :
    TST.maxMatch (TST.node v w l m r) (c :: rest) = TST.maxMatch l (c :: rest) := by
  simp [TST.maxMatch, h]

theorem TST.maxMatch_gt {C : Type} [LinearOrder C] {v c : C} (h : v < c) (w : Bool)
    (l m r : TST C) (rest : List C) :
    TST.maxMatch (TST.node v w l m r) (c :: rest) = TST.maxMatch r (c :: rest) := by
  simp [TST.maxMatch, h, asymm h]

theorem TST.maxMatch_eq {C : Type} [LinearOrder C] {v c : C} (h : v = c) (w : Bool)
    (l m r : TST C) (rest : List C) :
    TST.maxMatch (TST.node v w l m r) (c :: rest) = TST.maxMatch m rest + 1 := by
  subst h
  simp [TST.maxMatch]

theorem TST.hasChain_nil {C : Type} [LinearOrder C] (t : TST C) :
    TST.hasChain t [] = true := by
  cases t <;> rfl

theorem TST.hasChain_lt {C : Type} [LinearOrder C] {v c : C} (h : c < v) (w : Bool)
    (l m r : TST C) (rest : List C) :
    TST.hasChain (TST.node v w l m r) (c :: rest) = TST.hasChain l (c :: rest) := by
  simp [TST.hasChain, h]

theorem TST.hasChain_gt {C : Type} [LinearOrder C] {v c : C} (h : v < c) (w : Bool)
    (l m r : TST C) (rest : List C) :
    TST.hasChain (TST.node v w l m r) (c :: rest) = TST.hasChain r (c :: rest) := by
  simp [TST.hasChain, h, asymm h]

theorem TST.hasChain_eq {C : Type} [LinearOrder C] {v c : C} (h : v = c) (w : Bool)
    (l m r : TST C) (rest : List C) :
    TST.hasChain (TST.node v w l m r) (c :: rest) = TST.hasChain m rest := by
  subst h
  simp [TST.hasChain]

theorem TST.ps_fst {C : Type} [LinearOrder C] (t : TST C) :
    ∀ (s : List C) (acc : Nat) (p : TST C),
      (TST.prefix_search t s acc p).1 = acc + TST.maxMatch t s := by
  induction t with
  | empty =>
      intro s acc p
      cases s <;> simp [TST.prefix_search, TST.maxMatch]
  | node v w l m r ihl ihm ihr =>
      intro s acc p
      cases s with
      | nil => simp [TST.ps_nil, TST.maxMatch_nil]
      | cons c rest =>
          rcases lt_trichotomy v c with h | h | h
          · rw [TST.ps_gt h, TST.maxMatch_gt h, ihr]
          · rw [TST.ps_eq h, TST.maxMatch_eq h, ihm]
            omega
          · rw [TST.ps_lt h, TST.maxMatch_lt h, ihl]

theorem TST.maxMatch_le {C : Type} [LinearOrder C] (t : TST C) :
    ∀ s : List C, TST.maxMatch t s ≤ s.length := by
  induction t with
  | empty =>
      intro s
      cases s <;> simp [TST.maxMatch]
  | node v w l m r ihl ihm ihr =>
      intro s
      cases s with
      | nil => simp [TST.maxMatch_nil]
      | cons c rest =>
          rcases lt_trichotomy v c with h | h | h
          · rw [TST.maxMatch_gt h]
            exact ihr (c :: rest)
          · rw [TST.maxMatch_eq h]
            have := ihm rest
            simp only [List.length_cons]
            omega
          · rw [TST.maxMatch_lt h]
            exact ihl (c :: rest)

theorem TST.hasChain_take {C : Type} [LinearOrder C] (t : TST C) :
    ∀ s : List C, TST.hasChain t (s.take (TST.maxMatch t s)) = true := by
  induction t with
  | empty =>
      intro s
      cases s <;> simp [TST.maxMatch, TST.hasChain]
  | node v w l m r ihl ihm ihr =>
      intro s
      cases s with
      | nil => simp [TST.maxMatch_nil, TST.hasChain_nil]
      | cons c rest =>
          rcases lt_trichotomy v c with h | h | h
          · rw [TST.maxMatch_gt h]
            cases hn : TST.maxMatch r (c :: rest) with
            | zero => simp [TST.hasChain_nil]
            | succ k =>
                rw [List.take_succ_cons, TST.hasChain_gt h]
                have := ihr (c :: rest)
                rw [hn, List.take_succ_cons] at this
                exact this
          · rw [TST.maxMatch_eq h, List.take_succ_cons, TST.hasChain_eq h]
            exact ihm rest
          · rw [TST.maxMatch_lt h]
            cases hn : TST.maxMatch l (c :: rest) with
            | zero => simp [TST.hasChain_nil]
            | succ k =>
                rw [List.take_succ_cons, TST.hasChain_lt h]
                have := ihl (c :: rest)
                rw [hn, List.take_succ_cons] at this
                exact this

theorem TST.hasChain_le_maxMatch {C : Type} [LinearOrder C] (t : TST C) :
    ∀ (s : List C) (n : Nat), n ≤ s.length → TST.hasChain t (s.take n) = true →
      n ≤ TST.maxMatch t s := by
  induction t with
  | empty =>
      intro s n hn hc
      cases n with
      | zero => simp [TST.maxMatch_nil]
      | succ k =>
          cases s with
          | nil => simp at hn
          | cons c rest =>
              rw [List.take_succ_cons] at hc
              simp [TST.hasChain] at hc
  | node v w l m r ihl ihm ihr =>
      intro s n hn hc
      cases n with
      | zero => exact Nat.zero_le _
      | succ k =>
          cases s with
          | nil => simp at hn
          | cons c rest =>
              rw [List.take_succ_cons] at hc
              rcases lt_trichotomy v c with h | h | h
              · rw [TST.hasChain_gt h] at hc
                rw [TST.maxMatch_gt h]
                exact ihr (c :: rest) (k + 1) hn (by rw [List.take_succ_cons]; exact hc)
              · rw [TST.hasChain_eq h] at hc
                rw [TST.maxMatch_eq h]
                have hk : k ≤ rest.length := by
                  simp only [List.length_cons] at hn
                  omega
                have := ihm rest k hk hc
                omega
              · rw [TST.hasChain_lt h] at hc
                rw [TST.maxMatch_lt h]
                exact ihl (c :: rest) (k + 1) hn (by rw [List.take_succ_cons]; exact hc)

/-- C4: the result of the prefix operation is a prefix of the query,
some stored sequence of the tree agrees with the query on all of its
symbols, and its length is maximal among all such agreeing prefixes of
the query. -/
theorem tst_prefix_longest (C : Type) [LinearOrder C] (t : TST C) (s : List C) :
    TST.prefixOf t s <+: s ∧
    TST.hasChain t (TST.prefixOf t s) = true ∧
    (∀ n : Nat, n ≤ s.length → TST.hasChain t (s.take n) = true →
      n ≤ (TST.prefixOf t s).length) := by
  have hfst : (TST.prefix_search t s 0 TST.empty).1 = TST.maxMatch t s := by
    rw [TST.ps_fst]
    omega
  rw [TST.prefixOf, hfst]
  refine ⟨List.take_prefix _ _, TST.hasChain_take t s, fun n hn hc => ?_⟩
  have hle := TST.hasChain_le_maxMatch t s n hn hc
  have hmax := TST.maxMatch_le t s
  rw [List.length_take]
  omega

/-- Witness for C4: on the tree of the chain 1, 2 queried with the
sequence 1, 3 the prefix is the single symbol 1 and no longer prefix of
the query is matched. -/
theorem tst_prefix_longest_w :
    TST.prefixOf (TST.ofList [1, 2]) [1, 3] <+: [1, 3] ∧
    TST.hasChain (TST.ofList [1, 2]) (TST.prefixOf (TST.ofList [1, 2]) [1, 3]) = true ∧
    1 ≤ (TST.prefixOf (TST.ofList [1, 2]) [1, 3]).length := by
  have h := tst_prefix_longest Nat (TST.ofList [1, 2]) [1, 3]
  exact ⟨h.1, h.2.1, h.2.2 1 (by decide) (by decide)⟩

theorem TST.subtreeAt_empty {C : Type} :
    ∀ p : List TST.Dir, TST.subtreeAt (TST.empty : TST C) p = TST.empty := by
  intro p
  induction p with
  | nil => rfl
  | cons d p ih => simpa [TST.subtreeAt, TST.child] using ih

theorem TST.insPath_nil {C : Type} [LinearOrder C] (t : TST C) :
    TST.insPath t [] = [] := by
  cases t <;> rfl

theorem TST.insPath_empty {C : Type} [LinearOrder C] (s : List C) :
    TST.insPath (TST.empty : TST C) s = List.replicate s.length TST.Dir.M := by
  cases s <;> rfl

theorem TST.insPath_gt {C : Type} [LinearOrder C] {v c : C} (h : v < c) (w : Bool)
    (l m r : TST C) (rest : List C) :
    TST.insPath (TST.node v w l m r) (c :: rest)
      = TST.Dir.R :: TST.insPath r (c :: rest) := by
  simp [TST.insPath, h]

theorem TST.insPath_lt {C : Type} [LinearOrder C] {v c : C} (h : c < v) (w : Bool)
    (l m r : TST C) (rest : List C) :
    TST.insPath (TST.node v w l m r) (c :: rest)
      = TST.Dir.L :: TST.insPath l (c :: rest) := by
  simp [TST.insPath, h, asymm h]

theorem TST.insPath_eq {C : Type} [LinearOrder C] {v c : C} (h : c = v) (w : Bool)
    (l m r : TST C) (rest : List C) :
    TST.insPath (TST.node v w l m r) (c :: rest) = TST.Dir.M :: TST.insPath m rest := by
  subst h
  simp [TST.insPath]

theorem TST.ofList_off {C : Type} :
    ∀ (s : List C) (p : List TST.Dir), ¬ (p <+: List.replicate s.length TST.Dir.M) →
      TST.subtreeAt (TST.ofList s) p = TST.empty := by
  intro s
  induction s with
  | nil =>
      intro p _
      exact TST.subtreeAt_empty p
  | cons c rest ih =>
      intro p hp
      cases p with
      | nil => exact absurd (List.nil_prefix) hp
      | cons d p' =>
          cases d with
          | L => simpa [TST.ofList, TST.subtreeAt, TST.child] using TST.subtreeAt_empty p'
          | R => simpa [TST.ofList, TST.subtreeAt, TST.child] using TST.subtreeAt_empty p'
          | M =>
              rw [List.length_cons, List.replicate_succ] at hp
              have hp' : ¬ (p' <+: List.replicate rest.length TST.Dir.M) := fun hh =>
                hp (List.cons_prefix_cons.mpr ⟨rfl, hh⟩)
              simpa [TST.ofList, TST.subtreeAt, TST.child] using ih p' hp'

/-- C5: structural sharing of insertion: every subtree at a position
that is not a prefix of the insertion path dictated by the inserted
sequence is structurally unchanged (the rendering of reference identity
in this embedding); the original tree itself is untouched since insert
is a pure function on terms. -/
theorem tst_insert_sharing (C : Type) [LinearOrder C] (t : TST C) (s : List C)
    (p : List TST.Dir) (h : ¬ (p <+: TST.insPath t s)) :
    TST.subtreeAt (TST.insert t s) p = TST.subtreeAt t p := by
  induction t generalizing s p with
  | empty =>
      cases s with
      | nil => rw [TST.insert_nil]
      | cons c rest =>
          rw [TST.insert_empty_eq_ofList, TST.subtreeAt_empty]
          apply TST.ofList_off
          rwa [TST.insPath_empty] at h
  | node v w l m r ihl ihm ihr =>
      cases s with
      | nil => rw [TST.insert_nil]
      | cons c srest =>
          rcases lt_trichotomy v c with hc | hc | hc
          · rw [TST.insert_gt hc]
            rw [TST.insPath_gt hc] at h
            cases p with
            | nil => exact absurd (List.nil_prefix) h
            | cons d p' =>
                cases d with
                | L => simp [TST.subtreeAt, TST.child]
                | M => simp [TST.subtreeAt, TST.child]
                | R =>
                    simp only [TST.subtreeAt, TST.child]
                    exact ihr (c :: srest) p' (fun hh =>
                      h (List.cons_prefix_cons.mpr ⟨rfl, hh⟩))
          · rw [TST.insert_eq hc.symm]
            rw [TST.insPath_eq hc.symm] at h
            cases p with
            | nil => exact absurd (List.nil_prefix) h
            | cons d p' =>
                cases d with
                | L => simp [TST.subtreeAt, TST.child]
                | R => simp [TST.subtreeAt, TST.child]
                | M =>
                    simp only [TST.subtreeAt, TST.child]
                    exact ihm srest p' (fun hh =>
                      h (List.cons_prefix_cons.mpr ⟨rfl, hh⟩))
          · rw [TST.insert_lt hc]
            rw [TST.insPath_lt hc] at h
            cases p with
            | nil => exact absurd (List.nil_prefix) h
            | cons d p' =>
                cases d with
                | M => simp [TST.subtreeAt, TST.child]
                | R => simp [TST.subtreeAt, TST.child]
                | L =>
                    simp only [TST.subtreeAt, TST.child]
                    exact ihl (c :: srest) p' (fun hh =>
                      h (List.cons_prefix_cons.mpr ⟨rfl, hh⟩))

/-- Witness for C5: inserting the symbol 2 into the chain holding the
symbol 1 descends right, so the left position is off the path and its
subtree is unchanged. -/
theorem tst_insert_sharing_w :
    TST.subtreeAt (TST.insert (TST.ofList [1]) [2]) [TST.Dir.L]
      = TST.subtreeAt (TST.ofList [1]) [TST.Dir.L] :=
  tst_insert_sharing Nat (TST.ofList [1]) [2] [TST.Dir.L] (by decide)

/-- Counterexample for C9: in the end-to-end scenario the tree has 21
nodes, not the 11 stated by the specification; the three inserted words
share no common prefix, so no node is shared between their chains. -/
theorem tst_scenario_counterexample :
    TST.size exampleTree = 21 ∧ TST.size exampleTree ≠ 11 := by
  constructor
  · decide
  · decide

/-- C9 as amended: after inserting category, functor and theory in
order into the empty tree, category is a member, cat is not, the prefix
of catamorphism is cat, and the size is 21 (8 + 7 + 6 nodes, since the
three words share no prefix). -/
theorem tst_scenario :
    TST.exist exampleTree "category".toList = true ∧
    TST.exist exampleTree "cat".toList = false ∧
    TST.prefixOf exampleTree "catamorphism".toList = "cat".toList ∧
    TST.size exampleTree = 21 := by
  refine ⟨by decide, by decide, by decide, by decide⟩
